import Mathlib

/-!
Verification of the japanese-name-validator core against its specification.

The Python source is shallowly embedded: each method of
`validators/hepburn_converter.py`, `validators/kanji_reader.py` and
`validators/name_matcher.py` is translated into an executable Lean
definition operating on `String` / `List Char`.  Python dictionaries are
modelled as association lists (`List (key × value)`), Python's value
semantics (`.copy()`) is the identity on immutable Lean values, and
Python's `list(set(..))` / `dict.fromkeys(..)` deduplication is modelled
as first-occurrence deduplication (the claims proved below do not depend
on the unspecified iteration order of a Python `set`).
-/

/- ---------------------------------------------------------------------
   Generic helpers modelling Python primitives
--------------------------------------------------------------------- -/

/-- Models Python `str.upper()` for the ASCII letters that romaji contain:
uppercases each character. -/
def pyUpper (s : String) : String := String.mk (s.data.map Char.toUpper)

/-- Models Python `str.replace(" ", "")`: removes every space (U+0020). -/
def pyRemoveSpaces (s : String) : String := String.mk (s.data.filter (fun c => c ≠ ' '))

/-- The ASCII whitespace characters stripped by Python `str.strip()`. -/
def isPySpace (c : Char) : Bool := c ∈ [' ', '\t', '\n', '\r', '\x0b', '\x0c']

/-- Models Python `str.strip()` (restricted to ASCII whitespace): removes
leading and trailing whitespace. -/
def pyStrip (s : String) : String :=
  String.mk (((s.data.dropWhile isPySpace).reverse.dropWhile isPySpace).reverse)

/-- First-occurrence deduplication, keeping elements not yet seen.
Models Python `list(dict.fromkeys(xs))`; also used for `list(set(xs))`,
whose iteration order Python leaves unspecified. -/
def dedupFirstAux (seen : List String) : List String → List String
  | [] => []
  | x :: xs => if x ∈ seen then dedupFirstAux seen xs else x :: dedupFirstAux (x :: seen) xs

/-- First-occurrence deduplication of a list of strings. -/
def dedupFirst (l : List String) : List String := dedupFirstAux [] l

/-- The n-ary Cartesian product of lists of strings, each tuple joined by
concatenation, enumerated with the first list outermost — the order of
Python's `itertools.product` followed by `"".join`. -/
def listProd : List (List String) → List String
  | [] => [""]
  | seg :: rest => seg.flatMap (fun x => (listProd rest).map (fun y => x ++ y))

/-- Is every character of `s` an uppercase ASCII letter? -/
def isUpperStr (s : String) : Bool := s.data.all Char.isUpper

/-- Models Python `s.endswith(t)`. -/
def pyEndsWith (s t : String) : Bool := t.data.isSuffixOf s.data

/-- Models Python `s.startswith(t)`. -/
def pyStartsWith (s t : String) : Bool := t.data.isPrefixOf s.data

/-- Models Python `s[0]` on a string known to be nonempty. -/
def pyFirst (s : String) : Char := s.data.headD default

/-- Models Python `s[:-1]`: the string without its final character. -/
def pyDropLast (s : String) : String := String.mk s.data.dropLast

/-- One uppercase hexadecimal digit. -/
def hexDigitChar (n : Nat) : Char :=
  if n < 10 then Char.ofNat ('0'.toNat + n) else Char.ofNat ('A'.toNat + (n - 10))

/-- Strips leading zero digits while more than 4 digits remain. -/
def stripLeadingZeros : List Char → List Char
  | '0' :: rest => if 4 ≤ rest.length then stripLeadingZeros rest else '0' :: rest
  | l => l

/-- Models Python `f"{n:04X}"` for `n < 16^6` (all Unicode scalars qualify):
uppercase hex, zero-padded to width 4. -/
def toHex4 (n : Nat) : String :=
  let raw := [n / 0x100000 % 16, n / 0x10000 % 16, n / 0x1000 % 16,
              n / 0x100 % 16, n / 0x10 % 16, n % 16].map hexDigitChar
  String.mk (stripLeadingZeros raw)

/- ---------------------------------------------------------------------
   HepburnConverter  (validators/hepburn_converter.py)
--------------------------------------------------------------------- -/

/-- ROMAJI_TABLE of `HepburnConverter`: kana keys (length 1 or 2) to romaji,
in source order. -/
def ROMAJI_TABLE : List (String × String) := [
  ("しゃ", "SHA"), ("しゅ", "SHU"), ("しょ", "SHO"),
  ("じゃ", "JA"), ("じゅ", "JU"), ("じょ", "JO"),
  ("ちゃ", "CHA"), ("ちゅ", "CHU"), ("ちょ", "CHO"),
  ("ぢゃ", "JA"), ("ぢゅ", "JU"), ("ぢょ", "JO"),
  ("きゃ", "KYA"), ("きゅ", "KYU"), ("きょ", "KYO"),
  ("ぎゃ", "GYA"), ("ぎゅ", "GYU"), ("ぎょ", "GYO"),
  ("にゃ", "NYA"), ("にゅ", "NYU"), ("にょ", "NYO"),
  ("ひゃ", "HYA"), ("ひゅ", "HYU"), ("ひょ", "HYO"),
  ("びゃ", "BYA"), ("びゅ", "BYU"), ("びょ", "BYO"),
  ("ぴゃ", "PYA"), ("ぴゅ", "PYU"), ("ぴょ", "PYO"),
  ("みゃ", "MYA"), ("みゅ", "MYU"), ("みょ", "MYO"),
  ("りゃ", "RYA"), ("りゅ", "RYU"), ("りょ", "RYO"),
  ("あ", "A"), ("い", "I"), ("う", "U"), ("え", "E"), ("お", "O"),
  ("か", "KA"), ("き", "KI"), ("く", "KU"), ("け", "KE"), ("こ", "KO"),
  ("が", "GA"), ("ぎ", "GI"), ("ぐ", "GU"), ("げ", "GE"), ("ご", "GO"),
  ("さ", "SA"), ("し", "SHI"), ("す", "SU"), ("せ", "SE"), ("そ", "SO"),
  ("ざ", "ZA"), ("じ", "JI"), ("ず", "ZU"), ("ぜ", "ZE"), ("ぞ", "ZO"),
  ("た", "TA"), ("ち", "CHI"), ("つ", "TSU"), ("て", "TE"), ("と", "TO"),
  ("だ", "DA"), ("ぢ", "JI"), ("づ", "ZU"), ("で", "DE"), ("ど", "DO"),
  ("な", "NA"), ("に", "NI"), ("ぬ", "NU"), ("ね", "NE"), ("の", "NO"),
  ("は", "HA"), ("ひ", "HI"), ("ふ", "FU"), ("へ", "HE"), ("ほ", "HO"),
  ("ば", "BA"), ("び", "BI"), ("ぶ", "BU"), ("べ", "BE"), ("ぼ", "BO"),
  ("ぱ", "PA"), ("ぴ", "PI"), ("ぷ", "PU"), ("ぺ", "PE"), ("ぽ", "PO"),
  ("ま", "MA"), ("み", "MI"), ("む", "MU"), ("め", "ME"), ("も", "MO"),
  ("や", "YA"), ("ゆ", "YU"), ("よ", "YO"),
  ("ら", "RA"), ("り", "RI"), ("る", "RU"), ("れ", "RE"), ("ろ", "RO"),
  ("わ", "WA"), ("ゐ", "I"), ("ゑ", "E"), ("を", "O"),
  ("ん", "N")]

/-- BMP_SOUNDS: initial letters before which ん romanizes as M. -/
def BMP_SOUNDS : List Char := ['B', 'M', 'P']

/-- KATAKANA_START = ord('ァ'). -/
def KATAKANA_START : Nat := 0x30A1

/-- KATAKANA_END = ord('ヶ'). -/
def KATAKANA_END : Nat := 0x30F6

/-- HIRAGANA_START = ord('ぁ'). -/
def HIRAGANA_START : Nat := 0x3041

/-- One character of `katakana_to_hiragana`: katakana-block scalars are
shifted into the hiragana block, `ー` and everything else pass through. -/
def katakanaToHiraganaChar (c : Char) : Char :=
  if KATAKANA_START ≤ c.toNat ∧ c.toNat ≤ KATAKANA_END then
    Char.ofNat (c.toNat - KATAKANA_START + HIRAGANA_START)
  else if c = 'ー' then 'ー'
  else c

/-- `HepburnConverter.katakana_to_hiragana`, on the character list of the text. -/
def katakanaToHiragana (text : List Char) : List Char := text.map katakanaToHiraganaChar

/-- `HepburnConverter._get_single_romaji`: the romaji of the syllable starting
at the given position (here: at the head of the remaining character list),
preferring a two-character table key; `""` when absent. -/
def getSingleRomaji : List Char → String
  | [] => ""
  | [c] => (ROMAJI_TABLE.lookup (String.singleton c)).getD ""
  | c1 :: c2 :: _ =>
    match ROMAJI_TABLE.lookup (String.mk [c1, c2]) with
    | some r => r
    | none => (ROMAJI_TABLE.lookup (String.singleton c1)).getD ""

/-- `HepburnConverter._get_last_vowel`: last vowel of the uppercased romaji,
as a one-character string, or `""`. -/
def getLastVowel (romaji : String) : String :=
  match ((pyUpper romaji).data.reverse.find? (fun c => "AIUEO".data.contains c)) with
  | some c => String.singleton c
  | none => ""

/-- The new segment built by the `ー` branch of `_convert_to_segments`: for
each nonempty variant with a last vowel, the variant itself, the variant with
the vowel doubled, and for `O` additionally the `OH`-style variant. -/
def longVariants (lastSegment : List String) : List String :=
  lastSegment.flatMap (fun variant =>
    if variant = "" then []
    else
      let lastVowel := getLastVowel variant
      if lastVowel = "" then []
      else [variant, variant ++ lastVowel] ++
        (if lastVowel = "O" then
          [if pyEndsWith variant "O" then pyDropLast variant ++ "OH" else variant ++ "H"]
        else []))

/-- The `ー` branch of `_convert_to_segments`: replace the last emitted
segment (if any) by its deduplicated long-vowel variants (if any). -/
def longMarkStep (acc : List (List String)) : List (List String) :=
  match acc with
  | [] => acc
  | lastSegment :: earlier =>
    let newSegment := longVariants lastSegment
    if newSegment ≠ [] then dedupFirst newSegment :: earlier
    else acc

/-- The scanning loop of `HepburnConverter._convert_to_segments`, with the
segments accumulated in reverse (`segments.append` becomes cons).  The
source tests `i + 1 < len(hiragana)` inside each branch; here that test is
the distinction between the one-character-left and two-characters-left
patterns. -/
def convertCore : List Char → List (List String) → List (List String)
  | [], acc => acc.reverse
  | [c], acc =>
    if c = 'っ' then convertCore [] (["T"] :: acc)
    else if c = 'ん' then convertCore [] (["N"] :: acc)
    else if c = 'ー' then convertCore [] (longMarkStep acc)
    else
      match ROMAJI_TABLE.lookup (String.singleton c) with
      | some romaji => convertCore [] ([romaji] :: acc)
      | none => convertCore [] ([String.singleton c] :: acc)
  | c :: c2 :: rest2, acc =>
    if c = 'っ' then
      let nextRomaji := getSingleRomaji (c2 :: rest2)
      let seg :=
        if nextRomaji ≠ "" ∧ (pyFirst nextRomaji).isAlpha then
          [if pyStartsWith nextRomaji "CH" then "T" else String.singleton (pyFirst nextRomaji)]
        else ["T"]
      convertCore (c2 :: rest2) (seg :: acc)
    else if c = 'ん' then
      let nextRomaji := getSingleRomaji (c2 :: rest2)
      let seg :=
        if nextRomaji ≠ "" ∧ pyFirst nextRomaji ∈ BMP_SOUNDS then ["M"] else ["N"]
      convertCore (c2 :: rest2) (seg :: acc)
    else if c = 'ー' then convertCore (c2 :: rest2) (longMarkStep acc)
    else
      match ROMAJI_TABLE.lookup (String.mk [c, c2]) with
      | some romaji => convertCore rest2 ([romaji] :: acc)
      | none =>
        match ROMAJI_TABLE.lookup (String.singleton c) with
        | some romaji => convertCore (c2 :: rest2) ([romaji] :: acc)
        | none => convertCore (c2 :: rest2) ([String.singleton c] :: acc)

/-- `HepburnConverter._process_long_vowels`: rewrites adjacent singleton
segment pairs matching the おお/おう/うう/いい patterns.  (The source also
receives the hiragana string and tracks `h_idx`, but never uses them.) -/
def processLongVowels : List (List String) → List (List String)
  | [] => []
  | [s] => [s]
  | s1 :: s2 :: rest =>
    match s1, s2 with
    | [a], [b] =>
      if pyEndsWith a "O" ∧ b = "O" then
        [a, a ++ "O", if pyEndsWith a "O" then pyDropLast a ++ "OH" else a ++ "H"]
          :: processLongVowels rest
      else if pyEndsWith a "O" ∧ b = "U" then
        [a, a ++ "U"] :: processLongVowels rest
      else if pyEndsWith a "U" ∧ b = "U" then
        [a, a ++ "U"] :: processLongVowels rest
      else if pyEndsWith a "I" ∧ b = "I" then
        [a, a ++ "I"] :: processLongVowels rest
      else s1 :: processLongVowels (s2 :: rest)
    | _, _ => s1 :: processLongVowels (s2 :: rest)

/-- `HepburnConverter._convert_to_segments`: scan, then long-vowel post-pass. -/
def convertToSegments (hiragana : List Char) : List (List String) :=
  processLongVowels (convertCore hiragana [])

/-- `HepburnConverter._generate_combinations`: dedup each segment, clip each
segment to 3 variants when the product exceeds the budget, enumerate the
product, dedup preserving order, truncate to the budget. -/
def generateCombinations (segments : List (List String)) (maxCandidates : Nat) : List String :=
  if segments = [] then [""]
  else
    let uniqueSegments := segments.map dedupFirst
    let totalCombinations := (uniqueSegments.map List.length).prod
    let limitedSegments :=
      if totalCombinations > maxCandidates then
        uniqueSegments.map (fun seg => if seg.length ≤ 3 then seg else seg.take 3)
      else uniqueSegments
    (dedupFirst (listProd limitedSegments)).take maxCandidates

/-- `HepburnConverter.convert`: the romanizer.  Empty input yields `[""]`;
otherwise katakana are folded to hiragana, the string is segmented, and the
candidate combinations are generated with a budget of 10. -/
def convert (text : String) : List String :=
  if text = "" then [""]
  else generateCombinations (convertToSegments (katakanaToHiragana text.data)) 10

/-- Modelled from the spec (§4.1 / claim C8): the katakana equivalent of a
string, where each hiragana scalar is replaced by the katakana scalar 0x60
higher and all other scalars are unchanged. -/
def kataEquivChar (c : Char) : Char :=
  if HIRAGANA_START ≤ c.toNat ∧ c.toNat ≤ 0x3096 then Char.ofNat (c.toNat + 0x60) else c

/-- Modelled from the spec: katakana equivalent of a whole string. -/
def kataEquiv (s : String) : String := String.mk (s.data.map kataEquivChar)

/-- A character the converter can always romanize: a single-character key of
ROMAJI_TABLE, or one of the specially handled っ/ん/ー. -/
def convertibleChar (c : Char) : Bool :=
  (ROMAJI_TABLE.lookup (String.singleton c)).isSome || c ∈ ['っ', 'ん', 'ー']

/-- A kana scalar in the sense of the spec: hiragana block, the katakana
range handled by the converter, or the prolonged-sound mark. -/
def isKanaChar (c : Char) : Bool :=
  (HIRAGANA_START ≤ c.toNat && c.toNat ≤ 0x3096) ||
  (KATAKANA_START ≤ c.toNat && c.toNat ≤ KATAKANA_END) || c = 'ー'

/- ---------------------------------------------------------------------
   KanjiReader  (validators/kanji_reader.py)
--------------------------------------------------------------------- -/

/-- The dictionary store of a `KanjiReader`: the monolithic given-name and
single-kanji tables (single-kanji keys are one-character strings in the
JSON, modelled as `Char`), and the surname shard files, keyed by the
uppercase 4-hex-digit code point of the first character. -/
structure Dicts where
  givenNames : List (String × List String)
  singleKanji : List (Char × List String)
  surnameShards : List (String × List (String × List String))

/-- `KanjiReader._get_surnames_for_char` composed with the shard lookup, as
the pure function of the dictionary store: the shard for the first
character's code point (empty when the file is missing), searched for the
kanji.  The caching of shards is modelled separately by
`getSurnamesForChar` below. -/
def surnamesFor (d : Dicts) (kanji : String) : Option (List String) :=
  match kanji.data with
  | [] => none
  | c :: _ => ((d.surnameShards.lookup (toHex4 c.toNat)).getD []).lookup kanji

/-- The inner loop of `KanjiReader._combine_readings`: append `p ++ s` for
each suffix `s`, returning with the early-exit flag as soon as the length
reaches the budget. -/
def combineAppendOne (p : String) (suffixes acc : List String) (maxCombinations : Nat) :
    List String × Bool :=
  match suffixes with
  | [] => (acc, false)
  | s :: rest =>
    let acc' := acc ++ [p ++ s]
    if maxCombinations ≤ acc'.length then (acc', true)
    else combineAppendOne p rest acc' maxCombinations

/-- The double loop of `KanjiReader._combine_readings` building `new_result`
from one stage: all `p ++ s` in p-major order, with the early exit. -/
def combineOuter (ps cr acc : List String) (maxCombinations : Nat) : List String × Bool :=
  match ps with
  | [] => (acc, false)
  | p :: rest =>
    match combineAppendOne p cr acc maxCombinations with
    | (acc', true) => (acc', true)
    | (acc', false) => combineOuter rest cr acc' maxCombinations

/-- The stage loop of `KanjiReader._combine_readings`: an early exit returns
`new_result` as is; otherwise the final result is truncated to the budget. -/
def combineLoop (result : List String) (rest : List (List String)) (maxCombinations : Nat) :
    List String :=
  match rest with
  | [] => result.take maxCombinations
  | cr :: rest' =>
    match combineOuter result cr [] maxCombinations with
    | (newResult, true) => newResult
    | (newResult, false) => combineLoop newResult rest' maxCombinations

/-- `KanjiReader._combine_readings`. -/
def combineReadings (charReadings : List (List String)) (maxCombinations : Nat) : List String :=
  match charReadings with
  | [] => []
  | cr0 :: rest => combineLoop cr0 rest maxCombinations

/-- `KanjiReader._decompose_and_read`: per-character readings from the
single-kanji table (empty result when any character is missing), combined
with a budget of 10. -/
def decomposeAndRead (d : Dicts) (kanji : String) : List String :=
  if kanji = "" then []
  else
    match kanji.data.mapM (fun c => d.singleKanji.lookup c) with
    | some charReadings => combineReadings charReadings 10
    | none => []

/-- `KanjiReader.get_readings`: primary table (selected by `isSurname`),
then the opposite table, then single-kanji decomposition, then `([], false)`.
A dictionary hit returns the stored list (`.copy()` is the identity here)
with the flag `true`. -/
def getReadings (d : Dicts) (kanji : String) (isSurname : Bool) : List String × Bool :=
  if kanji = "" then ([], false)
  else
    match (if isSurname then surnamesFor d kanji else d.givenNames.lookup kanji) with
    | some readings => (readings, true)
    | none =>
      match (if isSurname then d.givenNames.lookup kanji else surnamesFor d kanji) with
      | some readings => (readings, true)
      | none =>
        let readings := decomposeAndRead d kanji
        if readings ≠ [] then (readings, false) else ([], false)

/- ---------------------------------------------------------------------
   The module-level surname shard cache  (kanji_reader.py lines 15-17, 45-65)
--------------------------------------------------------------------- -/

/-- `KanjiReader._get_surnames_for_char` with the module-level `_surname_cache`
made explicit.  The filesystem is modelled as an association list from file
key (`{HHHH}.json`) to parsed shard; a missing key is a missing file.
Returns the shard mapping, the new cache, and the number of filesystem
accesses performed (probe plus read counted as one). -/
def getSurnamesForChar (fs cache : List (String × List (String × List String)))
    (firstChar : Char) :
    List (String × List String) × List (String × List (String × List String)) × Nat :=
  let fileKey := toHex4 firstChar.toNat
  match cache.lookup fileKey with
  | some m => (m, cache, 0)
  | none =>
    match fs.lookup fileKey with
    | some m => (m, cache ++ [(fileKey, m)], 1)
    | none => ([], cache ++ [(fileKey, [])], 1)

/-- The cache state after a sequence of lookups starting from the empty
cache of a fresh process. -/
def runCache (fs : List (String × List (String × List String))) (cs : List Char) :
    List (String × List (String × List String)) :=
  cs.foldl (fun cache c => (getSurnamesForChar fs cache c).2.1) []

/-- The cross product of one combination stage: all `p ++ s` in p-major
order; `combineOuter` enumerates a prefix of this list. -/
def cross (ps cr : List String) : List String :=
  ps.flatMap (fun p => cr.map (fun s => p ++ s))

/-- Iterated cross product, one stage per reading list. -/
def crossIter (a : List String) (ls : List (List String)) : List String :=
  ls.foldl cross a

/-- Well-formedness of a shard cache with respect to the filesystem: every
cached entry is the parsed shard file, or empty for a missing file. -/
def cacheWF (fs cache : List (String × List (String × List String))) : Prop :=
  ∀ k v, cache.lookup k = some v → v = (fs.lookup k).getD []

/- ---------------------------------------------------------------------
   NameMatcher  (validators/name_matcher.py)
--------------------------------------------------------------------- -/

/-- CheckStatus of a per-component check. -/
inductive CheckStatus where
  | OK
  | MISMATCH
  | UNKNOWN_READING
deriving DecidableEq, BEq

/-- NameCheckResult: the result of checking one half of the name. -/
structure NameCheckResult where
  status : CheckStatus
  input : String
  expected_readings : List String
  expected_romaji : List String
  message : Option String
deriving DecidableEq

/-- ValidationResult: the aggregate result of `NameMatcher.validate`. -/
structure ValidationResult where
  is_valid : Bool
  sei_check : NameCheckResult
  mei_check : NameCheckResult
  warnings : List String
deriving DecidableEq

/-- `NameMatcher._normalize_romaji`: uppercase, remove the spaces, strip. -/
def normalizeRomaji (romaji : String) : String :=
  pyStrip (pyRemoveSpaces (pyUpper romaji))

/-- `NameMatcher._check_name`: normalize the romaji, resolve the readings,
romanize each reading, deduplicate, and compare. -/
def checkName (d : Dicts) (kanji romaji : String) (isSurname : Bool) : NameCheckResult :=
  let normalizedRomaji := normalizeRomaji romaji
  match getReadings d kanji isSurname with
  | (readings, foundInDict) =>
    if readings = [] then
      { status := CheckStatus.UNKNOWN_READING
        input := normalizedRomaji
        expected_readings := []
        expected_romaji := []
        message := some "漢字の読みが辞書にありません" }
    else
      let allRomajiCandidates := dedupFirst (readings.flatMap (fun reading => convert reading))
      if normalizedRomaji ∈ allRomajiCandidates then
        { status := CheckStatus.OK
          input := normalizedRomaji
          expected_readings := readings
          expected_romaji := allRomajiCandidates
          message := none }
      else if foundInDict then
        { status := CheckStatus.MISMATCH
          input := normalizedRomaji
          expected_readings := readings
          expected_romaji := allRomajiCandidates
          message := some "入力されたローマ字が期待値と一致しません" }
      else
        { status := CheckStatus.UNKNOWN_READING
          input := normalizedRomaji
          expected_readings := readings
          expected_romaji := allRomajiCandidates
          message := some "漢字の読みを推定しましたが、正確性を保証できません" }

/-- `NameMatcher.validate`: check both halves, collect a warning for each
half with status UNKNOWN_READING, and pass iff both statuses are OK or
UNKNOWN_READING. -/
def validate (d : Dicts) (kanjiSei kanjiMei romajiSei romajiMei : String) : ValidationResult :=
  let seiResult := checkName d kanjiSei romajiSei true
  let warningsSei :=
    if seiResult.status = CheckStatus.UNKNOWN_READING then
      ["姓「" ++ kanjiSei ++ "」の読みが辞書にありません"] else []
  let meiResult := checkName d kanjiMei romajiMei false
  let warningsMei :=
    if meiResult.status = CheckStatus.UNKNOWN_READING then
      ["名「" ++ kanjiMei ++ "」の読みが辞書にありません"] else []
  { is_valid :=
      (seiResult.status == CheckStatus.OK || seiResult.status == CheckStatus.UNKNOWN_READING) &&
      (meiResult.status == CheckStatus.OK || meiResult.status == CheckStatus.UNKNOWN_READING)
    sei_check := seiResult
    mei_check := meiResult
    warnings := warningsSei ++ warningsMei }

/- ---------------------------------------------------------------------
   Concrete dictionary stores used to instantiate the theorems
--------------------------------------------------------------------- -/

/-- A small dictionary store: one surname shard, one given name, and
single-kanji readings for 山 and 田. -/
def dwit : Dicts :=
  { givenNames := [("太郎", ["たろう"])]
    singleKanji := [('山', ["やま"]), ('田', ["だ", "た"])]
    surnameShards := [("5C71", [("山田", ["やまだ"])])] }

/-- A dictionary store with empty name tables whose single-kanji reading
lists (4 × 3 × 1) overflow the combination budget at an intermediate
stage. -/
def dcex : Dicts :=
  { givenNames := []
    singleKanji := [('一', ["a1", "a2", "a3", "a4"]), ('二', ["b1", "b2", "b3"]), ('三', ["c1"])]
    surnameShards := [] }

/- ---------------------------------------------------------------------
   General lemmas about the helpers
--------------------------------------------------------------------- -/

theorem mem_of_lookup_some {α β : Type} [BEq α] [LawfulBEq α] {l : List (α × β)} {k : α}
    {v : β} (h : l.lookup k = some v) : (k, v) ∈ l := by
  rw [List.lookup_eq_some_iff] at h
  obtain ⟨l₁, l₂, rfl, -⟩ := h
  simp

theorem dedupFirstAux_nodup (l : List String) :
    ∀ seen, (dedupFirstAux seen l).Nodup ∧ (∀ x ∈ dedupFirstAux seen l, x ∉ seen) := by
  induction l with
  | nil => intro seen; simp [dedupFirstAux]
  | cons a l ih =>
    intro seen
    by_cases ha : a ∈ seen
    · simpa [dedupFirstAux, ha] using ih seen
    · obtain ⟨hn, hd⟩ := ih (a :: seen)
      simp only [dedupFirstAux, if_neg ha]
      refine ⟨List.nodup_cons.mpr ⟨fun hmem => (hd a hmem) (List.mem_cons_self a seen), hn⟩, ?_⟩
      intro x hx hxseen
      rcases List.mem_cons.mp hx with rfl | hx'
      · exact ha hxseen
      · exact hd x hx' (List.mem_cons_of_mem _ hxseen)

theorem dedupFirst_nodup (l : List String) : (dedupFirst l).Nodup :=
  (dedupFirstAux_nodup l []).1

theorem dedupFirstAux_subset {l : List String} :
    ∀ seen, ∀ x ∈ dedupFirstAux seen l, x ∈ l := by
  induction l with
  | nil => intro seen x hx; simp [dedupFirstAux] at hx
  | cons a l ih =>
    intro seen x hx
    by_cases ha : a ∈ seen
    · simp only [dedupFirstAux, if_pos ha] at hx
      exact List.mem_cons_of_mem _ (ih seen x hx)
    · simp only [dedupFirstAux, if_neg ha] at hx
      rcases List.mem_cons.mp hx with rfl | hx'
      · exact List.mem_cons_self _ _
      · exact List.mem_cons_of_mem _ (ih (a :: seen) x hx')

theorem dedupFirst_subset {l : List String} : ∀ x ∈ dedupFirst l, x ∈ l :=
  dedupFirstAux_subset []

theorem dedupFirst_ne_nil {l : List String} (h : l ≠ []) : dedupFirst l ≠ [] := by
  cases l with
  | nil => exact absurd rfl h
  | cons a l => simp [dedupFirst, dedupFirstAux]

theorem take_ne_nil {l : List String} {n : Nat} (h : l ≠ []) (hn : 0 < n) :
    l.take n ≠ [] := by
  cases l with
  | nil => exact absurd rfl h
  | cons a l => cases n with
    | zero => omega
    | succ n => simp

/- ---------------------------------------------------------------------
   C10, C1, C6
--------------------------------------------------------------------- -/

/-- C10: `get_readings` applied to the empty kanji string returns
`([], false)` for either value of the surname flag and for every content
of the dictionary store, so no table is consulted and no shard loaded. -/
theorem getReadings_empty_input (d : Dicts) (b : Bool) :
    getReadings d "" b = ([], false) := by
  simp [getReadings]

/-- C1: `validate` passes iff both component statuses are OK or
UNKNOWN_READING, and the warnings list holds exactly one warning naming
the kanji for each half whose status is UNKNOWN_READING (so an
UNKNOWN_READING status alone never invalidates). -/
theorem validate_aggregate (d : Dicts) (ks km rs rm : String) :
    (validate d ks km rs rm).is_valid =
      (((checkName d ks rs true).status == CheckStatus.OK ||
        (checkName d ks rs true).status == CheckStatus.UNKNOWN_READING) &&
       ((checkName d km rm false).status == CheckStatus.OK ||
        (checkName d km rm false).status == CheckStatus.UNKNOWN_READING)) ∧
    (validate d ks km rs rm).warnings =
      (if (checkName d ks rs true).status = CheckStatus.UNKNOWN_READING
        then ["姓「" ++ ks ++ "」の読みが辞書にありません"] else []) ++
      (if (checkName d km rm false).status = CheckStatus.UNKNOWN_READING
        then ["名「" ++ km ++ "」の読みが辞書にありません"] else []) :=
  ⟨rfl, rfl⟩

/-- C6: the romanizer's output never has duplicates and never exceeds the
budget of 10, and the empty string romanizes to exactly `[""]`. -/
theorem convert_nodup_budget (k : String) :
    (convert k).Nodup ∧ (convert k).length ≤ 10 ∧ convert "" = [""] := by
  refine ⟨?_, ?_, rfl⟩ <;>
  · unfold convert
    split
    · simp
    · unfold generateCombinations
      split
      · simp
      · first
        | exact (List.take_sublist _ _).nodup (dedupFirst_nodup _)
        | exact List.length_take_le _ _

/- ---------------------------------------------------------------------
   C3: romaji normalization
--------------------------------------------------------------------- -/

theorem toNat_ofNat_of_valid {n : Nat} (h : Nat.isValidChar n) : (Char.ofNat n).toNat = n := by
  simp only [Char.ofNat, dif_pos h]
  simp [Char.ofNatAux, Char.toNat, UInt32.toNat]

theorem uint32_le_iff (a b : UInt32) : a ≤ b ↔ a.toNat ≤ b.toNat := by
  rw [UInt32.le_def]
  exact BitVec.le_def

theorem toUpper_not_lower (c : Char) : (Char.toUpper c).isLower = false := by
  show (if c.toNat ≥ 97 ∧ c.toNat ≤ 122 then Char.ofNat (c.toNat - 32) else c).isLower = false
  split
  · next h =>
    obtain ⟨h1, h2⟩ := h
    have hv : Nat.isValidChar (c.toNat - 32) := Or.inl (by omega)
    have ht : (Char.ofNat (c.toNat - 32)).toNat = c.toNat - 32 := toNat_ofNat_of_valid hv
    have hn : ¬ (97 ≤ (Char.ofNat (c.toNat - 32)).val) := by
      rw [uint32_le_iff]
      show ¬ (97 ≤ (Char.ofNat (c.toNat - 32)).toNat)
      omega
    simp [Char.isLower, hn]
  · next h =>
    rcases Nat.lt_or_ge c.toNat 97 with hlt | hge
    · have hn : ¬ (97 ≤ c.val) := by
        rw [uint32_le_iff]
        show ¬ (97 ≤ c.toNat)
        omega
      simp [Char.isLower, hn]
    · have h122 : 122 < c.toNat := by omega
      have hn : ¬ (c.val ≤ 122) := by
        rw [uint32_le_iff]
        show ¬ (c.toNat ≤ 122)
        omega
      simp [Char.isLower, hn]

/-- C3 counterexample: the normalization removes only the space character,
not every ASCII whitespace — an interior tab survives, so the normalized
romaji is not whitespace-free. -/
theorem normalizeRomaji_tab_cex :
    normalizeRomaji "a\tb" = "A\tB" ∧
    ((normalizeRomaji "a\tb").data.any isPySpace) = true := by
  constructor <;> rfl

/-- C3 (amended): the normalization uppercases (no lowercase ASCII letter
remains) and removes every space character U+0020 (and strips leading and
trailing whitespace); whitespace other than spaces may survive in the
interior. -/
theorem normalizeRomaji_spec (romaji : String) :
    ((normalizeRomaji romaji).data.all (fun c => !(c == ' ') && !c.isLower)) = true := by
  rw [List.all_eq_true]
  intro c hc
  have hmem : c ∈ (pyRemoveSpaces (pyUpper romaji)).data := by
    have h1 := (List.dropWhile_sublist (l := (pyRemoveSpaces (pyUpper romaji)).data)
      (p := isPySpace)).subset
    have h2 := (List.dropWhile_sublist
      (l := ((pyRemoveSpaces (pyUpper romaji)).data.dropWhile isPySpace).reverse)
      (p := isPySpace)).subset
    simp only [normalizeRomaji, pyStrip, List.mem_reverse] at hc
    exact h1 (by simpa using h2 hc)
  simp only [pyRemoveSpaces, pyUpper, List.mem_filter, List.mem_map] at hmem
  obtain ⟨⟨c0, _, rfl⟩, hnsp⟩ := hmem
  simp [toUpper_not_lower]
  exact of_decide_eq_true hnsp

/- ---------------------------------------------------------------------
   C9: the shard cache
--------------------------------------------------------------------- -/

theorem getSurnamesForChar_spec (fs cache : List (String × List (String × List String)))
    (c : Char) (hwf : cacheWF fs cache) :
    (getSurnamesForChar fs cache c).1 = (fs.lookup (toHex4 c.toNat)).getD [] ∧
    (getSurnamesForChar fs cache c).2.1.lookup (toHex4 c.toNat) =
      some (getSurnamesForChar fs cache c).1 ∧
    ((getSurnamesForChar fs cache c).2.1 = cache ∨
      (getSurnamesForChar fs cache c).2.1 =
        cache ++ [(toHex4 c.toNat, (getSurnamesForChar fs cache c).1)]) ∧
    cacheWF fs (getSurnamesForChar fs cache c).2.1 := by
  unfold getSurnamesForChar
  dsimp only
  rcases hc : cache.lookup (toHex4 c.toNat) with _ | m
  · rcases hf : fs.lookup (toHex4 c.toNat) with _ | m' <;>
    · dsimp only
      refine ⟨by simp, ?_, by simp, ?_⟩
      · simp only [List.lookup_append, hc, List.lookup_cons_self, Option.none_or]
      · intro k v hk
        rw [List.lookup_append] at hk
        rcases hk' : cache.lookup k with _ | v'
        · rw [hk', Option.none_or] at hk
          rcases hbeq : k == toHex4 c.toNat with _ | _
          · rw [List.lookup_cons, hbeq] at hk
            simp at hk
          · rw [List.lookup_cons, hbeq] at hk
            have : k = toHex4 c.toNat := by simpa using hbeq
            subst this
            simp only [Option.some.injEq] at hk
            rw [hf]
            simp [← hk]
        · rw [hk'] at hk
          have hv : v' = v := by simpa [Option.or] using hk
          subst hv
          exact hwf k _ hk'
  · have hm := hwf _ _ hc
    exact ⟨by simpa using hm, by simpa using hc, Or.inl rfl, hwf⟩

theorem runCache_wf (fs : List (String × List (String × List String))) (cs : List Char) :
    cacheWF fs (runCache fs cs) := by
  suffices h : ∀ cache, cacheWF fs cache →
      cacheWF fs (cs.foldl (fun cache c => (getSurnamesForChar fs cache c).2.1) cache) by
    exact h [] (fun k v hk => by simp at hk)
  induction cs with
  | nil => intro cache h; exact h
  | cons c cs ih =>
    intro cache h
    exact ih _ (getSurnamesForChar_spec fs cache c h).2.2.2

/-- C9: after any sequence of surname lookups from a fresh process, a
further lookup for a first character returns the parsed shard file (or the
empty mapping when the file is missing), leaves that value cached under
the 4-hex-digit code-point key, grows the cache by at most that one new
entry — never removing or replacing one — and a repeated lookup with the
same key returns the cached mapping with zero filesystem accesses. -/
theorem surname_cache_invariant (fs : List (String × List (String × List String)))
    (cs : List Char) (c : Char) :
    (getSurnamesForChar fs (runCache fs cs) c).1 = (fs.lookup (toHex4 c.toNat)).getD [] ∧
    (getSurnamesForChar fs (runCache fs cs) c).2.1.lookup (toHex4 c.toNat) =
      some (getSurnamesForChar fs (runCache fs cs) c).1 ∧
    ((getSurnamesForChar fs (runCache fs cs) c).2.1 = runCache fs cs ∨
      (getSurnamesForChar fs (runCache fs cs) c).2.1 =
        runCache fs cs ++ [(toHex4 c.toNat, (getSurnamesForChar fs (runCache fs cs) c).1)]) ∧
    getSurnamesForChar fs (getSurnamesForChar fs (runCache fs cs) c).2.1 c =
      ((getSurnamesForChar fs (runCache fs cs) c).1,
       (getSurnamesForChar fs (runCache fs cs) c).2.1, 0) := by
  obtain ⟨h1, h2, h3, _⟩ := getSurnamesForChar_spec fs (runCache fs cs) c (runCache_wf fs cs)
  refine ⟨h1, h2, h3, ?_⟩
  show (let fileKey := toHex4 c.toNat;
    match (getSurnamesForChar fs (runCache fs cs) c).2.1.lookup fileKey with
    | some m => (m, (getSurnamesForChar fs (runCache fs cs) c).2.1, 0)
    | none =>
      match fs.lookup fileKey with
      | some m => (m, (getSurnamesForChar fs (runCache fs cs) c).2.1 ++ [(fileKey, m)], 1)
      | none => ([], (getSurnamesForChar fs (runCache fs cs) c).2.1 ++ [(fileKey, [])], 1)) =
    ((getSurnamesForChar fs (runCache fs cs) c).1, (getSurnamesForChar fs (runCache fs cs) c).2.1, 0)
  dsimp only
  rw [h2]

/- ---------------------------------------------------------------------
   C7: resolution order of get_readings
--------------------------------------------------------------------- -/

/-- C7: for a nonempty kanji string the resolver tries the primary table
(selected by the surname flag), then the opposite table, then the
decomposition fallback (which itself yields `([], false)` when empty); a
table hit returns the stored list unchanged, and the flag is true exactly
when one of the two tables contains the key. -/
theorem getReadings_resolution_order (d : Dicts) (kanji : String) (b : Bool)
    (h : kanji ≠ "") :
    (∀ rs, (if b then surnamesFor d kanji else d.givenNames.lookup kanji) = some rs →
      getReadings d kanji b = (rs, true)) ∧
    (∀ rs, (if b then surnamesFor d kanji else d.givenNames.lookup kanji) = none →
      (if b then d.givenNames.lookup kanji else surnamesFor d kanji) = some rs →
      getReadings d kanji b = (rs, true)) ∧
    ((if b then surnamesFor d kanji else d.givenNames.lookup kanji) = none →
      (if b then d.givenNames.lookup kanji else surnamesFor d kanji) = none →
      getReadings d kanji b = (decomposeAndRead d kanji, false)) ∧
    ((getReadings d kanji b).2 = true ↔
      (if b then surnamesFor d kanji else d.givenNames.lookup kanji) ≠ none ∨
      (if b then d.givenNames.lookup kanji else surnamesFor d kanji) ≠ none) := by
  unfold getReadings
  rw [if_neg h]
  rcases hp : (if b then surnamesFor d kanji else d.givenNames.lookup kanji) with _ | rs
  · rcases ho : (if b then d.givenNames.lookup kanji else surnamesFor d kanji) with _ | rs'
    · dsimp only
      refine ⟨by intro rs hrs; simp at hrs, by intro rs h1 h2; simp at h2, fun _ _ => ?_, ?_⟩
      · split
        · rfl
        · next hne =>
          have : decomposeAndRead d kanji = [] := by
            by_contra hcon
            exact hne hcon
          rw [this]
      · constructor
        · intro hflag
          exfalso
          revert hflag
          split <;> simp
        · intro hor
          rcases hor with hor | hor <;> exact absurd rfl hor
    · refine ⟨by intro rs hrs; simp at hrs, by intro rs h1 h2; simp at h2; exact h2 ▸ rfl, ?_, ?_⟩
      · intro _ hcon
        simp at hcon
      · simp
  · refine ⟨?_, by intro rs h1 h2; simp at h1, by intro h1; simp at h1, by simp⟩
    intro rs' hrs'
    simp only [Option.some.injEq] at hrs'
    rw [hrs']

/-- C7 witness: in the concrete store `dwit`, the surname 山田 is found in
its shard and returned unchanged with the flag true. -/
theorem getReadings_resolution_order_witness :
    getReadings dwit "山田" true = (["やまだ"], true) :=
  (getReadings_resolution_order dwit "山田" true (by decide)).1 ["やまだ"] (by decide)

/- ---------------------------------------------------------------------
   C2: the per-component check
--------------------------------------------------------------------- -/

/-- C2: one component check reports the normalized romaji as input; with no
readings the status is UNKNOWN_READING and both expected lists are empty;
otherwise the expected romanizations are the order-preserving deduplicated
union of the romanizer's outputs over all readings, and the status is OK on
membership, else MISMATCH when the dictionary flag is set, else
UNKNOWN_READING. -/
theorem checkName_spec (d : Dicts) (kanji romaji : String) (b : Bool) :
    (checkName d kanji romaji b).status =
      (if (getReadings d kanji b).1 = [] then CheckStatus.UNKNOWN_READING
       else if normalizeRomaji romaji ∈
          dedupFirst ((getReadings d kanji b).1.flatMap (fun reading => convert reading)) then
         CheckStatus.OK
       else if (getReadings d kanji b).2 then CheckStatus.MISMATCH
       else CheckStatus.UNKNOWN_READING) ∧
    (checkName d kanji romaji b).input = normalizeRomaji romaji ∧
    (checkName d kanji romaji b).expected_readings =
      (if (getReadings d kanji b).1 = [] then [] else (getReadings d kanji b).1) ∧
    (checkName d kanji romaji b).expected_romaji =
      (if (getReadings d kanji b).1 = [] then []
       else dedupFirst ((getReadings d kanji b).1.flatMap (fun reading => convert reading))) := by
  unfold checkName
  rcases hr : getReadings d kanji b with ⟨readings, foundInDict⟩
  dsimp only
  by_cases h0 : readings = []
  · simp [h0]
  · rw [if_neg h0, if_neg h0, if_neg h0]
    by_cases hmem :
        normalizeRomaji romaji ∈ dedupFirst (readings.flatMap (fun reading => convert reading))
    · simp [hmem, h0]
    · rw [if_neg hmem, if_neg hmem]
      cases foundInDict
      · simp [h0]
      · simp [h0]

/- ---------------------------------------------------------------------
   C8: katakana folding
--------------------------------------------------------------------- -/

theorem string_eq_empty_iff (s : String) : s = "" ↔ s.data = [] := by
  constructor
  · intro h
    rw [h]
  · intro h
    have : String.mk s.data = String.mk [] := congrArg String.mk h
    simpa using this

theorem katakanaToHiraganaChar_kataEquiv (c : Char) :
    katakanaToHiraganaChar (kataEquivChar c) = katakanaToHiraganaChar c := by
  unfold kataEquivChar katakanaToHiraganaChar
  simp only [KATAKANA_START, KATAKANA_END, HIRAGANA_START]
  split
  · next h =>
    have hv : Nat.isValidChar (c.toNat + 0x60) := Or.inl (by omega)
    have ht : (Char.ofNat (c.toNat + 0x60)).toNat = c.toNat + 0x60 := toNat_ofNat_of_valid hv
    have hne : c ≠ 'ー' := by
      intro he
      subst he
      revert h
      decide
    rw [ht]
    rw [if_pos (by omega : 0x30A1 ≤ c.toNat + 0x60 ∧ c.toNat + 0x60 ≤ 0x30F6)]
    rw [if_neg (by omega : ¬ (0x30A1 ≤ c.toNat ∧ c.toNat ≤ 0x30F6))]
    rw [if_neg hne]
    have harg : c.toNat + 0x60 - 0x30A1 + 0x3041 = c.toNat := by omega
    rw [harg, Char.ofNat_toNat]
  · rfl

/-- C8: romanizing the katakana equivalent of a string (each hiragana
scalar shifted up by 0x60) gives the same candidate list, because the
converter first folds every scalar in U+30A1..U+30F6 down by 0x60 and
leaves the prolonged-sound mark and every other scalar unchanged. -/
theorem convert_kataEquiv (k : String) :
    convert (kataEquiv k) = convert k ∧
    (∀ c : Char, katakanaToHiraganaChar c =
      if KATAKANA_START ≤ c.toNat ∧ c.toNat ≤ KATAKANA_END then
        Char.ofNat (c.toNat - KATAKANA_START + HIRAGANA_START)
      else c) := by
  constructor
  · by_cases hk : k = ""
    · subst hk
      rfl
    · have hk2 : kataEquiv k ≠ "" := by
        intro he
        apply hk
        rw [string_eq_empty_iff] at he ⊢
        have : (k.data.map kataEquivChar) = [] := he
        simpa using this
      unfold convert
      rw [if_neg hk, if_neg hk2]
      have hfold : katakanaToHiragana (kataEquiv k).data = katakanaToHiragana k.data := by
        show (k.data.map kataEquivChar).map katakanaToHiraganaChar =
          k.data.map katakanaToHiraganaChar
        rw [List.map_map]
        apply List.map_congr_left
        intro a _
        exact katakanaToHiraganaChar_kataEquiv a
      rw [hfold]
  · intro c
    unfold katakanaToHiraganaChar
    split
    · rfl
    · next hrange =>
      by_cases hm : c = 'ー'
      · subst hm
        rfl
      · rw [if_neg hm]

/- ---------------------------------------------------------------------
   C4: decomposition fallback and the combination budget
--------------------------------------------------------------------- -/

theorem cross_cons (p : String) (ps cr : List String) :
    cross (p :: ps) cr = cr.map (fun s => p ++ s) ++ cross ps cr := rfl

theorem cross_length (a b : List String) : (cross a b).length = a.length * b.length := by
  induction a with
  | nil => simp [cross]
  | cons p a ih =>
    rw [cross_cons, List.length_append, ih, List.length_map, List.length_cons]
    ring

theorem cross_assoc (a b c : List String) : cross (cross a b) c = cross a (cross b c) := by
  simp only [cross, List.flatMap_assoc, List.flatMap_map, List.map_flatMap, List.map_map]
  simp [Function.comp_def, String.append_assoc]

theorem listProd_cons (l : List String) (ls : List (List String)) :
    listProd (l :: ls) = cross l (listProd ls) := rfl

theorem cross_singleton_empty (a : List String) : cross a [""] = a := by
  induction a with
  | nil => rfl
  | cons p a ih =>
    rw [cross_cons, ih]
    simp

theorem crossIter_eq (ls : List (List String)) :
    ∀ a, crossIter a ls = cross a (listProd ls) := by
  induction ls with
  | nil => intro a; simpa [crossIter, listProd] using (cross_singleton_empty a).symm
  | cons l ls ih =>
    intro a
    show crossIter (cross a l) ls = cross a (listProd (l :: ls))
    rw [ih, listProd_cons, cross_assoc]

theorem listProd_length (ls : List (List String)) :
    (listProd ls).length = (ls.map List.length).prod := by
  induction ls with
  | nil => rfl
  | cons l ls ih =>
    rw [listProd_cons, cross_length, ih, List.map_cons, List.prod_cons]

theorem combineAppendOne_spec (p : String) (ss : List String) (maxC : Nat) :
    ∀ acc, acc.length < maxC →
    combineAppendOne p ss acc maxC =
      (if maxC ≤ acc.length + ss.length
       then ((acc ++ ss.map (fun s => p ++ s)).take maxC, true)
       else (acc ++ ss.map (fun s => p ++ s), false)) := by
  induction ss with
  | nil =>
    intro acc hacc
    simp only [List.length_nil, Nat.add_zero]
    rw [if_neg (by omega)]
    simp [combineAppendOne]
  | cons s ss ih =>
    intro acc hacc
    unfold combineAppendOne
    dsimp only
    by_cases hfull : maxC ≤ (acc ++ [p ++ s]).length
    · rw [if_pos hfull]
      have hlen : maxC = acc.length + 1 := by
        rw [List.length_append] at hfull
        simp at hfull
        omega
      rw [if_pos (by simp; omega)]
      have htake : (acc ++ (p ++ s) :: ss.map (fun s => p ++ s)).take maxC = acc ++ [p ++ s] := by
        rw [List.take_append_eq_append_take, List.take_of_length_le (by omega), hlen]
        congr 1
        rw [show acc.length + 1 - acc.length = 1 by omega]
        rfl
      rw [List.map_cons, htake]
    · rw [if_neg hfull]
      rw [ih (acc ++ [p ++ s]) (by omega)]
      rw [List.length_append] at hfull
      simp only [List.length_append, List.length_cons, List.length_map]
      simp only [List.length_cons] at hfull
      rw [List.append_cons acc (p ++ s)]
      have harith : (acc.length + (ss.length + 1) = (acc ++ [p ++ s]).length + ss.length) := by
        simp
        omega
      by_cases hord : maxC ≤ acc.length + (ss.length + 1)
      · rw [if_pos hord, if_pos (by simp; omega)]
        simp
      · rw [if_neg hord, if_neg (by simp; omega)]
        simp

theorem combineOuter_spec (cr : List String) (maxC : Nat) :
    ∀ ps acc, acc.length < maxC →
    combineOuter ps cr acc maxC =
      (if maxC ≤ acc.length + (cross ps cr).length
       then ((acc ++ cross ps cr).take maxC, true)
       else (acc ++ cross ps cr, false)) := by
  intro ps
  induction ps with
  | nil =>
    intro acc hacc
    rw [if_neg (by simpa [cross] using hacc)]
    simp [combineOuter, cross]
  | cons p ps ih =>
    intro acc hacc
    unfold combineOuter
    rw [combineAppendOne_spec p cr maxC acc hacc]
    rw [cross_cons, ← List.append_assoc]
    simp only [List.length_append, List.length_map]
    by_cases hfirst : maxC ≤ acc.length + cr.length
    · rw [if_pos hfirst]
      rw [if_pos (by omega)]
      have ht : ((acc ++ cr.map (fun s => p ++ s)) ++ cross ps cr).take maxC =
          (acc ++ cr.map (fun s => p ++ s)).take maxC :=
        List.take_append_of_le_length (by simp only [List.length_append, List.length_map]; omega)
      rw [ht]
    · rw [if_neg hfirst]
      dsimp only
      rw [ih (acc ++ cr.map (fun s => p ++ s))
        (by simp only [List.length_append, List.length_map]; omega)]
      simp only [List.length_append, List.length_map]
      rw [show acc.length + cr.length + (cross ps cr).length =
        acc.length + (cr.length + (cross ps cr).length) from by omega]

theorem combineLoop_spec (maxC : Nat) (hpos : 0 < maxC) :
    ∀ (rest : List (List String)) (result : List String),
    (∀ pre suf, rest = pre ++ suf → suf ≠ [] → (crossIter result pre).length < maxC) →
    combineLoop result rest maxC = (crossIter result rest).take maxC := by
  intro rest
  induction rest with
  | nil =>
    intro result _
    rfl
  | cons cr rest' ih =>
    intro result hpre
    have hres : result.length < maxC := by
      simpa [crossIter] using hpre [] (cr :: rest') rfl (by simp)
    unfold combineLoop
    rw [combineOuter_spec cr maxC result [] (by simpa using hpos)]
    by_cases hfull : maxC ≤ (cross result cr).length
    · rw [if_pos (by simpa using hfull)]
      dsimp only
      have hrest : rest' = [] := by
        by_contra hne
        have := hpre [cr] rest' rfl hne
        rw [show crossIter result [cr] = cross result cr from rfl] at this
        omega
      subst hrest
      rw [show crossIter result [cr] = cross result cr from rfl]
      simp
    · rw [if_neg (by simpa using hfull)]
      dsimp only
      rw [List.nil_append]
      rw [ih (cross result cr) ?_]
      · rfl
      · intro pre suf hsplit hsuf
        have := hpre (cr :: pre) suf (by rw [hsplit]; rfl) hsuf
        simpa [crossIter] using this

theorem mapM_option_length {α β : Type} (f : α → Option β) :
    ∀ (l : List α) (res : List β), l.mapM f = some res → res.length = l.length := by
  intro l
  induction l with
  | nil =>
    intro res h
    simp only [List.mapM_nil, Option.pure_def, Option.some.injEq] at h
    rw [← h]
    rfl
  | cons a l ih =>
    intro res h
    rw [List.mapM_cons] at h
    cases hf : f a with
    | none => rw [hf] at h; simp at h
    | some b =>
      rw [hf] at h
      simp only [Option.pure_def, Option.bind_eq_bind, Option.bind_eq_some,
        Option.some.injEq] at h
      obtain ⟨b2, hb2, as, hmapm, hres⟩ := h
      rw [← hres]
      simp [ih as hmapm]

theorem crossIter_length (a : List String) (ls : List (List String)) :
    (crossIter a ls).length = a.length * (ls.map List.length).prod := by
  rw [crossIter_eq, cross_length, listProd_length]

/-- C4 (amended): when every scalar of the kanji has a single-kanji entry,
the kanji is in neither name table, and the running product of reading-list
lengths stays below the budget of 10 on every proper prefix of the scalars,
`get_readings` returns a flag of false and a prefix, in enumeration order
and of length at most 10, of the Cartesian product of the per-scalar
reading lists.  (Without the running-product hypothesis the stage loop can
exit early and return readings that omit the trailing scalars.) -/
theorem getReadings_decomposition (d : Dicts) (kanji : String) (b : Bool)
    (crs : List (List String))
    (h1 : kanji.data.mapM (fun c => d.singleKanji.lookup c) = some crs)
    (h2 : surnamesFor d kanji = none)
    (h3 : d.givenNames.lookup kanji = none)
    (h4 : ∀ i, i < crs.length - 1 → ((crs.take (i + 1)).map List.length).prod < 10) :
    (getReadings d kanji b).2 = false ∧
    (getReadings d kanji b).1 <+: listProd crs ∧
    (getReadings d kanji b).1.length ≤ 10 := by
  by_cases hk : kanji = ""
  · subst hk
    obtain rfl : crs = [] := by
      have := mapM_option_length _ _ _ h1
      exact List.eq_nil_of_length_eq_zero (by simpa using this)
    refine ⟨by simp [getReadings], by simp [getReadings], by simp [getReadings]⟩
  · have hp : (if b then surnamesFor d kanji else d.givenNames.lookup kanji) = none := by
      cases b <;> simp [h2, h3]
    have ho : (if b then d.givenNames.lookup kanji else surnamesFor d kanji) = none := by
      cases b <;> simp [h2, h3]
    have hdec : decomposeAndRead d kanji = (listProd crs).take 10 := by
      unfold decomposeAndRead
      rw [if_neg hk, h1]
      dsimp only
      obtain ⟨r, rs, rfl⟩ : ∃ r rs, crs = r :: rs := by
        cases hcrs : crs with
        | cons r rs => exact ⟨r, rs, rfl⟩
        | nil =>
          exfalso
          apply hk
          rw [hcrs] at h1
          have := mapM_option_length _ _ _ h1
          exact (string_eq_empty_iff kanji).mpr
            (List.eq_nil_of_length_eq_zero (by simpa using this.symm))
      show combineLoop r rs 10 = (listProd (r :: rs)).take 10
      rw [combineLoop_spec 10 (by omega) rs r ?_]
      · rw [crossIter_eq, listProd_cons]
      · intro pre suf hsplit hsuf
        have hsuflen : 0 < suf.length := List.length_pos.mpr hsuf
        have hi := h4 pre.length (by
          subst hsplit
          simp only [List.length_cons, List.length_append]
          omega)
        subst hsplit
        rw [List.take_succ_cons, List.take_left] at hi
        rw [crossIter_length]
        simpa using hi
    have hmain : getReadings d kanji b = ((listProd crs).take 10, false) := by
      unfold getReadings
      rw [if_neg hk, hp]
      dsimp only
      rw [ho]
      dsimp only
      rw [hdec]
      split
      · rfl
      · next hne =>
        have hnil : (listProd crs).take 10 = [] := by
          by_contra hcon
          exact hne hcon
        rw [hnil]
    rw [hmain]
    exact ⟨rfl, List.take_prefix 10 _, List.length_take_le 10 _⟩

/-- C4 witness: in `dwit` the two-character kanji 田山 is in neither table,
both scalars have single-kanji readings, and the returned readings form a
prefix of the 2 × 1 Cartesian product. -/
theorem getReadings_decomposition_witness :
    (getReadings dwit "田山" true).2 = false ∧
    (getReadings dwit "田山" true).1 <+: listProd [["だ", "た"], ["やま"]] ∧
    (getReadings dwit "田山" true).1.length ≤ 10 :=
  getReadings_decomposition dwit "田山" true [["だ", "た"], ["やま"]]
    (by decide) (by decide) (by decide) (by decide)

/-- C4 counterexample: in `dcex` all hypotheses of the claim hold for
一二三 (every scalar in the single-kanji table, found in neither name
table), yet the stage loop hits the budget while combining the first two
scalars, exits early, and returns ten readings that omit the third
scalar's reading entirely — not a prefix of the Cartesian product of the
per-scalar reading lists. -/
theorem getReadings_decomposition_cex :
    ("一二三".data.mapM (fun c => dcex.singleKanji.lookup c) =
      some [["a1", "a2", "a3", "a4"], ["b1", "b2", "b3"], ["c1"]]) ∧
    surnamesFor dcex "一二三" = none ∧
    dcex.givenNames.lookup "一二三" = none ∧
    (getReadings dcex "一二三" true).2 = false ∧
    ¬ ((getReadings dcex "一二三" true).1 <+:
        listProd [["a1", "a2", "a3", "a4"], ["b1", "b2", "b3"], ["c1"]]) := by
  decide

/- ---------------------------------------------------------------------
   C5: output alphabet of the romanizer
--------------------------------------------------------------------- -/

theorem isUpperStr_iff (s : String) : isUpperStr s = true ↔ ∀ c ∈ s.data, c.isUpper = true := by
  simp [isUpperStr, List.all_eq_true]

theorem isUpperStr_append (a b : String) :
    isUpperStr (a ++ b) = (isUpperStr a && isUpperStr b) := by
  show (a.data ++ b.data).all Char.isUpper = _
  rw [List.all_append]
  rfl

theorem romajiTable_good : ∀ (k v : String), ROMAJI_TABLE.lookup k = some v →
    v ≠ "" ∧ isUpperStr v = true := by
  have hall : ∀ p ∈ ROMAJI_TABLE, p.2 ≠ "" ∧ isUpperStr p.2 = true := by decide
  intro k v h
  exact hall (k, v) (mem_of_lookup_some h)

theorem pyFirst_upper {s : String} (hne : s ≠ "") (hup : isUpperStr s = true) :
    (pyFirst s).isUpper = true := by
  rcases hd : s.data with _ | ⟨c, cs⟩
  · exact absurd ((string_eq_empty_iff s).mpr hd) hne
  · have : pyFirst s = c := by rw [pyFirst, hd]; rfl
    rw [this]
    exact (isUpperStr_iff s).mp hup c (by rw [hd]; exact List.mem_cons_self c cs)

theorem isUpperStr_singleton (c : Char) : isUpperStr (String.singleton c) = c.isUpper := by
  show [c].all Char.isUpper = c.isUpper
  simp

theorem getLastVowel_upper (v : String) : isUpperStr (getLastVowel v) = true := by
  unfold getLastVowel
  rcases hf : (pyUpper v).data.reverse.find? (fun c => "AIUEO".data.contains c) with _ | c
  · rfl
  · have hc := List.find?_some hf
    have hm : c ∈ "AIUEO".data := by simpa using hc
    rw [isUpperStr_singleton]
    have h5 : "AIUEO".data = ['A', 'I', 'U', 'E', 'O'] := rfl
    rw [h5] at hm
    simp only [List.mem_cons, List.not_mem_nil, or_false] at hm
    rcases hm with rfl | rfl | rfl | rfl | rfl <;> rfl

theorem pyDropLast_upper {v : String} (h : isUpperStr v = true) :
    isUpperStr (pyDropLast v) = true := by
  rw [isUpperStr_iff] at h ⊢
  intro c hc
  exact h c (List.dropLast_subset v.data hc)

theorem longVariants_upper {lastSegment : List String}
    (h : ∀ s ∈ lastSegment, isUpperStr s = true) :
    ∀ s ∈ longVariants lastSegment, isUpperStr s = true := by
  intro s hs
  unfold longVariants at hs
  rw [List.mem_flatMap] at hs
  obtain ⟨variant, hv, hsv⟩ := hs
  have hvu := h variant hv
  by_cases h0 : variant = ""
  · rw [if_pos h0] at hsv
    simp at hsv
  · rw [if_neg h0] at hsv
    by_cases h1 : getLastVowel variant = ""
    · rw [if_pos h1] at hsv
      simp at hsv
    · rw [if_neg h1] at hsv
      rw [List.mem_append] at hsv
      rcases hsv with hsv | hsv
      · simp only [List.mem_cons, List.not_mem_nil, or_false] at hsv
        rcases hsv with rfl | rfl
        · exact hvu
        · rw [isUpperStr_append, hvu, getLastVowel_upper]
          rfl
      · by_cases hO : getLastVowel variant = "O"
        · rw [if_pos hO] at hsv
          simp only [List.mem_singleton] at hsv
          subst hsv
          split
          · rw [isUpperStr_append, pyDropLast_upper hvu]
            rfl
          · rw [isUpperStr_append, hvu]
            rfl
        · rw [if_neg hO] at hsv
          exact absurd hsv (List.not_mem_nil s)

theorem getSingleRomaji_good (rest : List Char) :
    getSingleRomaji rest = "" ∨ isUpperStr (getSingleRomaji rest) = true := by
  match rest with
  | [] => exact Or.inl rfl
  | [c] =>
    simp only [getSingleRomaji]
    rcases hl : ROMAJI_TABLE.lookup (String.singleton c) with _ | r
    · exact Or.inl rfl
    · exact Or.inr (romajiTable_good _ _ hl).2
  | c1 :: c2 :: rest2 =>
    simp only [getSingleRomaji]
    rcases h2 : ROMAJI_TABLE.lookup (String.mk [c1, c2]) with _ | r
    · rcases hl : ROMAJI_TABLE.lookup (String.singleton c1) with _ | r
      · exact Or.inl rfl
      · exact Or.inr (romajiTable_good _ _ hl).2
    · exact Or.inr (romajiTable_good _ _ h2).2

theorem longMarkStep_good {acc : List (List String)}
    (hacc : ∀ seg ∈ acc, seg ≠ [] ∧ ∀ s ∈ seg, isUpperStr s = true) :
    ∀ seg ∈ longMarkStep acc, seg ≠ [] ∧ ∀ s ∈ seg, isUpperStr s = true := by
  intro seg hseg
  unfold longMarkStep at hseg
  rcases acc with _ | ⟨lastSegment, earlier⟩
  · exact hacc seg hseg
  · dsimp only at hseg
    split at hseg
    · next hne =>
      rcases hseg with _ | ⟨_, hseg⟩
      · refine ⟨dedupFirst_ne_nil hne, ?_⟩
        intro s hs
        exact longVariants_upper (fun s hs' =>
          (hacc lastSegment (List.mem_cons_self _ _)).2 s hs') s (dedupFirst_subset s hs)
      · exact hacc seg (List.mem_cons_of_mem _ hseg)
    · exact hacc seg hseg

theorem convertCore_good (l : List Char) (acc : List (List String)) :
    (∀ c ∈ l, convertibleChar c = true) →
    (∀ seg ∈ acc, seg ≠ [] ∧ ∀ s ∈ seg, isUpperStr s = true) →
    ∀ seg ∈ convertCore l acc, seg ≠ [] ∧ ∀ s ∈ seg, isUpperStr s = true := by
  induction l, acc using convertCore.induct with
  | case1 acc =>
    intro _ hacc seg hseg
    rw [show convertCore [] acc = acc.reverse from rfl, List.mem_reverse] at hseg
    exact hacc seg hseg
  | case2 acc ih =>
    intro _ hacc
    simp only [convertCore]
    rw [if_pos trivial]
    refine ih (by simp) ?_
    intro seg hseg
    rcases hseg with _ | ⟨_, hseg⟩
    · exact ⟨by simp, by decide⟩
    · exact hacc seg hseg
  | case3 acc hne1 ih =>
    intro _ hacc
    simp only [convertCore]
    rw [if_pos trivial]
    refine ih (by simp) ?_
    intro seg hseg
    rcases hseg with _ | ⟨_, hseg⟩
    · exact ⟨by simp, by decide⟩
    · exact hacc seg hseg
  | case4 acc hne1 hne2 ih =>
    intro _ hacc
    simp only [convertCore]
    rw [if_pos trivial]
    exact ih (by simp) (longMarkStep_good hacc)
  | case5 c acc h1 h2 h3 r hlook ih =>
    intro _ hacc
    simp only [convertCore]
    rw [if_neg h1, if_neg h2, if_neg h3, hlook]
    refine ih (by simp) ?_
    intro seg hseg
    rcases hseg with _ | ⟨_, hseg⟩
    · refine ⟨by simp, ?_⟩
      intro s hs
      rcases hs with _ | ⟨_, hs⟩
      · exact (romajiTable_good _ _ hlook).2
      · exact absurd hs (List.not_mem_nil s)
    · exact hacc seg hseg
  | case6 c acc h1 h2 h3 hlook ih =>
    intro hl _
    exfalso
    have := hl c (List.mem_cons_self c [])
    rw [convertibleChar, hlook] at this
    simp [h1, h2, h3] at this
  | case7 c2 rest2 acc nextRomaji seg ih =>
    intro hl hacc
    simp only [convertCore]
    rw [if_pos trivial]
    refine ih (fun a ha => hl a (List.mem_cons_of_mem _ ha)) ?_
    intro segx hsegx
    rcases hsegx with _ | ⟨_, hsegx⟩
    · rw [show seg = (if nextRomaji ≠ "" ∧ (pyFirst nextRomaji).isAlpha = true then
          [if pyStartsWith nextRomaji "CH" = true then "T"
           else String.singleton (pyFirst nextRomaji)]
        else ["T"]) from rfl]
      split
      · next hcond =>
        refine ⟨by simp, ?_⟩
        intro s hs
        rcases hs with _ | ⟨_, hs⟩
        · split
          · decide
          · rw [isUpperStr_singleton]
            exact pyFirst_upper hcond.1
              ((getSingleRomaji_good (c2 :: rest2)).resolve_left hcond.1)
        · exact absurd hs (List.not_mem_nil s)
      · exact ⟨by simp, by decide⟩
    · exact hacc segx hsegx
  | case8 c2 rest2 acc nextRomaji seg hne1 ih =>
    intro hl hacc
    simp only [convertCore]
    rw [if_pos trivial]
    refine ih (fun a ha => hl a (List.mem_cons_of_mem _ ha)) ?_
    intro segx hsegx
    rcases hsegx with _ | ⟨_, hsegx⟩
    · rw [show seg = (if nextRomaji ≠ "" ∧ pyFirst nextRomaji ∈ BMP_SOUNDS then ["M"]
        else ["N"]) from rfl]
      split
      · exact ⟨by simp, by decide⟩
      · exact ⟨by simp, by decide⟩
    · exact hacc segx hsegx
  | case9 c2 rest2 acc hne1 hne2 ih =>
    intro hl hacc
    simp only [convertCore]
    rw [if_pos trivial]
    exact ih (fun a ha => hl a (List.mem_cons_of_mem _ ha)) (longMarkStep_good hacc)
  | case10 c c2 rest2 acc h1 h2 h3 r hlook ih =>
    intro hl hacc
    simp only [convertCore]
    rw [if_neg h1, if_neg h2, if_neg h3, hlook]
    refine ih (fun a ha => hl a (List.mem_cons_of_mem _ (List.mem_cons_of_mem _ ha))) ?_
    intro seg hseg
    rcases hseg with _ | ⟨_, hseg⟩
    · refine ⟨by simp, ?_⟩
      intro s hs
      rcases hs with _ | ⟨_, hs⟩
      · exact (romajiTable_good _ _ hlook).2
      · exact absurd hs (List.not_mem_nil s)
    · exact hacc seg hseg
  | case11 c c2 rest2 acc h1 h2 h3 hlook2 r hlook ih =>
    intro hl hacc
    simp only [convertCore]
    rw [if_neg h1, if_neg h2, if_neg h3, hlook2, hlook]
    refine ih (fun a ha => hl a (List.mem_cons_of_mem _ ha)) ?_
    intro seg hseg
    rcases hseg with _ | ⟨_, hseg⟩
    · refine ⟨by simp, ?_⟩
      intro s hs
      rcases hs with _ | ⟨_, hs⟩
      · exact (romajiTable_good _ _ hlook).2
      · exact absurd hs (List.not_mem_nil s)
    · exact hacc seg hseg
  | case12 c c2 rest2 acc h1 h2 h3 hlook2 hlook ih =>
    intro hl _
    exfalso
    have := hl c (List.mem_cons_self c _)
    rw [convertibleChar, hlook] at this
    simp [h1, h2, h3] at this

theorem processLongVowels_good (segs : List (List String)) :
    (∀ seg ∈ segs, seg ≠ [] ∧ ∀ s ∈ seg, isUpperStr s = true) →
    ∀ seg ∈ processLongVowels segs, seg ≠ [] ∧ ∀ s ∈ seg, isUpperStr s = true := by
  induction segs using processLongVowels.induct with
  | case1 =>
    intro _ seg hseg
    exact absurd hseg (List.not_mem_nil seg)
  | case2 s =>
    intro h seg hseg
    exact h seg hseg
  | case3 rest a b hcond ih =>
    intro h seg hseg
    have hau : isUpperStr a = true :=
      (h [a] (List.mem_cons_self _ _)).2 a (List.mem_cons_self _ _)
    simp only [processLongVowels, if_pos hcond] at hseg
    rcases hseg with _ | ⟨_, hseg⟩
    · refine ⟨by simp, ?_⟩
      intro s hs
      rcases hs with _ | ⟨_, hs⟩
      · exact hau
      · rcases hs with _ | ⟨_, hs⟩
        · rw [isUpperStr_append, hau]
          rfl
        · rcases hs with _ | ⟨_, hs⟩
          · split
            · rw [isUpperStr_append, pyDropLast_upper hau]
              rfl
            · rw [isUpperStr_append, hau]
              rfl
          · exact absurd hs (List.not_mem_nil s)
    · exact ih (fun sg hsg => h sg (List.mem_cons_of_mem _ (List.mem_cons_of_mem _ hsg)))
        seg hseg
  | case4 rest a b hn1 hcond ih =>
    intro h seg hseg
    have hau : isUpperStr a = true :=
      (h [a] (List.mem_cons_self _ _)).2 a (List.mem_cons_self _ _)
    simp only [processLongVowels, if_neg hn1, if_pos hcond] at hseg
    rcases hseg with _ | ⟨_, hseg⟩
    · refine ⟨by simp, ?_⟩
      intro s hs
      rcases hs with _ | ⟨_, hs⟩
      · exact hau
      · rcases hs with _ | ⟨_, hs⟩
        · rw [isUpperStr_append, hau]
          rfl
        · exact absurd hs (List.not_mem_nil s)
    · exact ih (fun sg hsg => h sg (List.mem_cons_of_mem _ (List.mem_cons_of_mem _ hsg)))
        seg hseg
  | case5 rest a b hn1 hn2 hcond ih =>
    intro h seg hseg
    have hau : isUpperStr a = true :=
      (h [a] (List.mem_cons_self _ _)).2 a (List.mem_cons_self _ _)
    simp only [processLongVowels, if_neg hn1, if_neg hn2, if_pos hcond] at hseg
    rcases hseg with _ | ⟨_, hseg⟩
    · refine ⟨by simp, ?_⟩
      intro s hs
      rcases hs with _ | ⟨_, hs⟩
      · exact hau
      · rcases hs with _ | ⟨_, hs⟩
        · rw [isUpperStr_append, hau]
          rfl
        · exact absurd hs (List.not_mem_nil s)
    · exact ih (fun sg hsg => h sg (List.mem_cons_of_mem _ (List.mem_cons_of_mem _ hsg)))
        seg hseg
  | case6 rest a b hn1 hn2 hn3 hcond ih =>
    intro h seg hseg
    have hau : isUpperStr a = true :=
      (h [a] (List.mem_cons_self _ _)).2 a (List.mem_cons_self _ _)
    simp only [processLongVowels, if_neg hn1, if_neg hn2, if_neg hn3, if_pos hcond] at hseg
    rcases hseg with _ | ⟨_, hseg⟩
    · refine ⟨by simp, ?_⟩
      intro s hs
      rcases hs with _ | ⟨_, hs⟩
      · exact hau
      · rcases hs with _ | ⟨_, hs⟩
        · rw [isUpperStr_append, hau]
          rfl
        · exact absurd hs (List.not_mem_nil s)
    · exact ih (fun sg hsg => h sg (List.mem_cons_of_mem _ (List.mem_cons_of_mem _ hsg)))
        seg hseg
  | case7 rest a b hn1 hn2 hn3 hn4 ih =>
    intro h seg hseg
    simp only [processLongVowels, if_neg hn1, if_neg hn2, if_neg hn3, if_neg hn4] at hseg
    rcases hseg with _ | ⟨_, hseg⟩
    · exact h [a] (List.mem_cons_self _ _)
    · exact ih (fun sg hsg => h sg (List.mem_cons_of_mem _ hsg)) seg hseg
  | case8 s1 s2 rest hne ih =>
    intro h seg hseg
    have hred : processLongVowels (s1 :: s2 :: rest) = s1 :: processLongVowels (s2 :: rest) := by
      conv_lhs => unfold processLongVowels
      split
      · next a b => exact (hne a b rfl rfl).elim
      · rfl
    rw [hred] at hseg
    rcases hseg with _ | ⟨_, hseg⟩
    · exact h s1 (List.mem_cons_self _ _)
    · exact ih (fun sg hsg => h sg (List.mem_cons_of_mem _ hsg)) seg hseg

theorem listProd_ne_nil {ls : List (List String)} (h : ∀ seg ∈ ls, seg ≠ []) :
    listProd ls ≠ [] := by
  induction ls with
  | nil => simp [listProd]
  | cons seg rest ih =>
    have hne := h seg (List.mem_cons_self _ _)
    have hrest : listProd rest ≠ [] := ih (fun sg hsg => h sg (List.mem_cons_of_mem _ hsg))
    obtain ⟨x, hx⟩ := List.exists_mem_of_ne_nil _ hne
    obtain ⟨y, hy⟩ := List.exists_mem_of_ne_nil _ hrest
    exact List.ne_nil_of_mem
      (List.mem_flatMap.mpr ⟨x, hx, List.mem_map.mpr ⟨y, hy, rfl⟩⟩)

theorem listProd_upper {ls : List (List String)}
    (h : ∀ seg ∈ ls, ∀ s ∈ seg, isUpperStr s = true) :
    ∀ s ∈ listProd ls, isUpperStr s = true := by
  induction ls with
  | nil =>
    intro s hs
    rcases hs with _ | ⟨_, hs⟩
    · rfl
    · exact absurd hs (List.not_mem_nil s)
  | cons seg rest ih =>
    intro s hs
    rw [show listProd (seg :: rest) =
      seg.flatMap (fun x => (listProd rest).map (fun y => x ++ y)) from rfl] at hs
    rw [List.mem_flatMap] at hs
    obtain ⟨x, hx, hs⟩ := hs
    rw [List.mem_map] at hs
    obtain ⟨y, hy, rfl⟩ := hs
    rw [isUpperStr_append, h seg (List.mem_cons_self _ _) x hx,
      ih (fun sg hsg => h sg (List.mem_cons_of_mem _ hsg)) y hy]
    rfl

theorem generateCombinations_good (segs : List (List String))
    (h : ∀ seg ∈ segs, seg ≠ [] ∧ ∀ s ∈ seg, isUpperStr s = true) :
    generateCombinations segs 10 ≠ [] ∧
    ∀ s ∈ generateCombinations segs 10, isUpperStr s = true := by
  have key : ∀ limited : List (List String),
      (∀ seg ∈ limited, seg ≠ [] ∧ ∀ s ∈ seg, isUpperStr s = true) →
      (dedupFirst (listProd limited)).take 10 ≠ [] ∧
      ∀ s ∈ (dedupFirst (listProd limited)).take 10, isUpperStr s = true := by
    intro limited hlim
    constructor
    · exact take_ne_nil (dedupFirst_ne_nil (listProd_ne_nil (fun sg hsg => (hlim sg hsg).1)))
        (by omega)
    · intro s hs
      exact listProd_upper (fun sg hsg => (hlim sg hsg).2) s
        (dedupFirst_subset s (List.take_subset 10 _ hs))
  unfold generateCombinations
  by_cases hnil : segs = []
  · rw [if_pos hnil]
    refine ⟨by simp, ?_⟩
    intro s hs
    rcases hs with _ | ⟨_, hs⟩
    · rfl
    · exact absurd hs (List.not_mem_nil s)
  · rw [if_neg hnil]
    dsimp only
    have hquniq : ∀ seg ∈ segs.map dedupFirst, seg ≠ [] ∧ ∀ s ∈ seg, isUpperStr s = true := by
      intro seg hseg
      rw [List.mem_map] at hseg
      obtain ⟨seg0, hseg0, rfl⟩ := hseg
      exact ⟨dedupFirst_ne_nil (h seg0 hseg0).1,
        fun s hs => (h seg0 hseg0).2 s (dedupFirst_subset s hs)⟩
    apply key
    split
    · intro seg hseg
      rw [List.mem_map] at hseg
      obtain ⟨seg0, hseg0, rfl⟩ := hseg
      obtain ⟨hne0, hup0⟩ := hquniq seg0 hseg0
      split
      · exact ⟨hne0, hup0⟩
      · exact ⟨take_ne_nil hne0 (by omega), fun s hs => hup0 s (List.take_subset 3 _ hs)⟩
    · exact hquniq

/-- C5 counterexample: a lone small ぁ is a nonempty kana string (it lies in
the hiragana block), yet the converter passes it through literally, so the
romanization list contains an element that is not uppercase ASCII. -/
theorem convert_upper_cex :
    ("ぁ" ≠ "") ∧ (∀ c ∈ "ぁ".data, isKanaChar c = true) ∧
    convert "ぁ" = ["ぁ"] ∧ ¬ (∀ s ∈ convert "ぁ", isUpperStr s = true) := by
  decide

/-- C5 (amended): for a nonempty string each of whose scalars, after
katakana folding, is a single-character key of the romaji table or one of
the specially handled っ/ん/ー, the romanizer returns a nonempty list whose
every element consists only of uppercase ASCII letters.  (An unsupported
kana scalar such as ぁ is passed through literally, so the claim's
conclusion fails for general kana input.) -/
theorem convert_upper (k : String) (h0 : k ≠ "")
    (h : ∀ c ∈ katakanaToHiragana k.data, convertibleChar c = true) :
    convert k ≠ [] ∧ ∀ s ∈ convert k, isUpperStr s = true := by
  unfold convert
  rw [if_neg h0]
  exact generateCombinations_good _
    (processLongVowels_good _
      (convertCore_good (katakanaToHiragana k.data) [] h (by simp)))

/-- C5 witness: やまだ is supported and romanizes to nonempty uppercase
candidates. -/
theorem convert_upper_witness :
    convert "やまだ" ≠ [] ∧ ∀ s ∈ convert "やまだ", isUpperStr s = true :=
  convert_upper "やまだ" (by decide) (by decide)
